import Mathlib

/-!
Verification development for the latus synchronization engine
(`latus/sync.py`): a shallow embedding of `LocalSync.dispatch`,
`CloudSync.dispatch` and `SyncBase.start`, together with models of their
collaborators (`latus.fsdb`, `latus.miv`, the blob cache written by
`latus.crypto.compress` / read by `latus.crypto.expand`), and theorems about
the merge winner selection, the local scan, and the error paths.

Modelling conventions:
- file digests, file contents and encrypted blobs are natural numbers;
  the digest function `hashFn`, the encryption `encFn` and the decryption
  `decFn` are explicit parameters of the dispatch functions;
- a node's event log (`fsdb/<node>.db`) is a `List FileInfo` in append
  order; the local folder and the blob cache are association lists;
- hashing of an existing file always succeeds in the model (the
  `if local_hash:` guard of `sync.py` collapses to true);
- each dispatch returns, besides the new state, the list of externally
  visible effects (log appends, blob stores, expands, trash moves) in the
  order the source performs them.
-/

namespace Latus

abbrev Path := String
abbrev NodeId := String

/-- A local file: its content, size and modification time. -/
structure File where
  content : Nat
  size : Nat
  mtime : Nat
deriving DecidableEq, Repr

/-- One row of a node's event-log database (`fsdb/<node>.db`): the columns
passed to `FileSystemDB.update(seq, path, size, hash, mtime)`.  An absent
`hash` marks a tombstone (deletion). -/
structure FileInfo where
  seq : Nat
  path : Path
  size : Option Nat
  hash : Option Nat
  mtime : Option Nat
deriving DecidableEq, Repr

/-- First-match lookup in an association list. -/
def alookup {α β : Type} [DecidableEq α] : List (α × β) → α → Option β
  | [], _ => none
  | (a, b) :: rest, x => if a = x then some b else alookup rest x

/-- Replace the first binding of a key, or append a new binding (the
semantics of a Python dict assignment and of writing a file at a path). -/
def aupdate {α β : Type} [DecidableEq α] : List (α × β) → α → β → List (α × β)
  | [], a, b => [(a, b)]
  | (k, v) :: rest, a, b => if k = a then (k, b) :: rest else (k, v) :: aupdate rest a b

/-- Fold step selecting the row for path `p` with the greatest `seq`
(later rows win ties).  Modelled from the spec: `NodeEventLog.current(path)`
is the maximum-`seq` record for that path (`latus/fsdb.py` is not part of
the sources at hand; the tie direction inside one log is a modelling
choice). -/
def latestStep (p : Path) (best : Option FileInfo) (r : FileInfo) : Option FileInfo :=
  if r.path = p then
    match best with
    | none => some r
    | some b => if b.seq ≤ r.seq then some r else some b
  else best

/-- Modelled from the spec: `FileSystemDB.get_latest_file_info(path)` —
the maximum-`seq` record for `path`, or absent. -/
def getLatestFileInfo (lg : List FileInfo) (p : Path) : Option FileInfo :=
  lg.foldl (latestStep p) none

/-- Modelled from the spec: `FileSystemDB.get_paths()` — every path ever
recorded in the log, without duplicates. -/
def getPaths (lg : List FileInfo) : List Path :=
  (lg.map (fun r => r.path)).dedup

/-- Modelled from the spec: `FileSystemDB.get_most_recent_hash(path)` —
the digest of the current record, absent for tombstones and unknown paths. -/
def getMostRecentHash (lg : List FileInfo) (p : Path) : Option Nat :=
  (getLatestFileInfo lg p).bind (fun r => r.hash)

/-- Modelled from the spec: `FileSystemDB.get_last_seq(path)`. -/
def getLastSeq (lg : List FileInfo) (p : Path) : Option Nat :=
  (getLatestFileInfo lg p).map (fun r => r.seq)

/-- The blob-cache write of `sync.py` lines 146-148: the encrypted body is
written under the digest only when no entry for this digest exists
(`if not os.path.exists(cloud_fernet_file): crypto.compress(...)`);
a pre-existing entry is never touched. -/
def storeBlob (cache : List (Nat × Nat)) (digest blob : Nat) : List (Nat × Nat) :=
  if alookup cache digest = none then cache ++ [(digest, blob)] else cache

/-- The characters of `os.path.basename`: everything after the last slash. -/
def basenameOf (s : String) : List Char :=
  (s.toList.reverse.takeWhile (fun c => c ≠ '/')).reverse

/-- The extension part of `os.path.splitext` applied to a basename:
the suffix from the last dot, where leading dots do not start an
extension. -/
def extOf (cs : List Char) : List Char :=
  let rest := cs.drop (cs.takeWhile (fun c => c = '.')).length
  if rest.contains '.' then
    '.' :: (rest.reverse.takeWhile (fun c => c ≠ '.')).reverse
  else []

/-- `os.path.splitext(os.path.basename(s))[1]` as used by
`CloudSync.dispatch` to filter events. -/
def fileExtOf (s : String) : String :=
  String.mk (extOf (basenameOf s))

/-- The state a local dispatch pass reads and writes: the latus folder,
this node's own event log, the shared blob cache and the shared
monotonically-increasing-value counter. -/
structure LocalState where
  fs : List (Path × File)
  log : List FileInfo
  cache : List (Nat × Nat)
  miv : Nat
deriving DecidableEq, Repr

/-- Externally visible effects of a dispatch pass, in source order. -/
inductive Effect where
  | append (fi : FileInfo)
  | store (digest blob : Nat)
  | expand (p : Path) (digest : Nat) (ok : Bool)
  | toTrash (p : Path) (ok : Bool)
deriving DecidableEq, Repr

/-- Modelled from the spec: `latus.miv.next_miv` returns a durably
persisted value strictly greater than every previously issued one — the
shared counter plus one. -/
def nextMiv (m : Nat) : Nat :=
  m + 1

/-- The body of the first loop of `LocalSync.dispatch` (sync.py lines
129-150) for one walked file: hash it; if the digest differs from this
node's current record (or there is none), append a new record with a
fresh miv value; then write the encrypted blob into the cache if absent. -/
def step1 (hashFn encFn : Nat → Nat) (st : LocalState) (p : Path) (f : File) :
    LocalState × List Effect :=
  let localHash := hashFn f.content
  let mostRecent := getMostRecentHash st.log p
  let (st1, tr1) :=
    if some localHash ≠ mostRecent then
      let fi : FileInfo := ⟨nextMiv st.miv, p, some f.size, some localHash, some f.mtime⟩
      ({ st with log := st.log ++ [fi], miv := nextMiv st.miv }, [Effect.append fi])
    else (st, [])
  let tr2 : List Effect :=
    if alookup st1.cache localHash = none then [Effect.store localHash (encFn f.content)]
    else []
  ({ st1 with cache := storeBlob st1.cache localHash (encFn f.content) }, tr1 ++ tr2)

/-- The first loop of `LocalSync.dispatch` over the walked files. -/
def pass1 (hashFn encFn : Nat → Nat) : List (Path × File) → LocalState → LocalState × List Effect
  | [], st => (st, [])
  | (p, f) :: rest, st =>
    let (st1, tr1) := step1 hashFn encFn st p f
    let (st2, tr2) := pass1 hashFn encFn rest st1
    (st2, tr1 ++ tr2)

/-- The body of the deletion loop of `LocalSync.dispatch` (sync.py lines
154-159) for one recorded path: if the local file no longer exists and the
current record is not already a tombstone, append a tombstone record. -/
def step2 (st : LocalState) (p : Path) : LocalState × List Effect :=
  if alookup st.fs p = none ∧ (getMostRecentHash st.log p).isSome then
    let fi : FileInfo := ⟨nextMiv st.miv, p, none, none, none⟩
    ({ st with log := st.log ++ [fi], miv := nextMiv st.miv }, [Effect.append fi])
  else (st, [])

/-- The deletion loop of `LocalSync.dispatch` over the recorded paths. -/
def pass2 : List Path → LocalState → LocalState × List Effect
  | [], st => (st, [])
  | p :: rest, st =>
    let (st1, tr1) := step2 st p
    let (st2, tr2) := pass2 rest st1
    (st2, tr1 ++ tr2)

/-- `LocalSync.dispatch(event)` (sync.py lines 120-162): the event argument
is only interpolated into a log message by the source; the pass always
walks the whole folder and then checks every recorded path for deletion.
The recorded-path list is read once, after the first loop, as in the
source. -/
def localDispatch (hashFn encFn : Nat → Nat) (_event : Option String) (s : LocalState) :
    LocalState × List Effect :=
  let (s1, tr1) := pass1 hashFn encFn s.fs s
  let (s2, tr2) := pass2 (getPaths s1.log) s1
  (s2, tr1 ++ tr2)

/-- The state a cloud dispatch pass touches: this node's id, the latus
folder, all nodes' event logs in the enumeration order of the `*.db`
files, the blob cache, the recoverable trash, and the set of paths on
which `send2trash` raises `OSError` (an environment oracle). -/
structure CloudState where
  myNode : NodeId
  fs : List (Path × File)
  logs : List (NodeId × List FileInfo)
  cache : List (Nat × Nat)
  trash : List (Path × File)
  trashFail : List Path
deriving DecidableEq, Repr

/-- The winner-map update of `CloudSync.dispatch` (sync.py lines 206-215)
for one recorded path of one node's log: an unseen path is initialised,
an already-chosen winner is replaced only when the new record's `seq` is
strictly greater. -/
def winnersStep (nid : NodeId) (lg : List FileInfo) (ws : List (Path × FileInfo × NodeId))
    (p : Path) : List (Path × FileInfo × NodeId) :=
  match getLatestFileInfo lg p with
  | none => ws
  | some fi =>
    match alookup ws p with
    | some w => if fi.seq > w.1.seq then aupdate ws p (fi, nid) else ws
    | none => aupdate ws p (fi, nid)

/-- The winner map of `CloudSync.dispatch` (sync.py lines 200-216): fold
over the node logs in file-enumeration order, and over each log's recorded
paths, keeping per path the current record seen so far with the greatest
`seq`, tagged with the node it came from. -/
def computeWinners (logs : List (NodeId × List FileInfo)) : List (Path × FileInfo × NodeId) :=
  logs.foldl
    (fun ws entry => (getPaths entry.2).foldl (winnersStep entry.1 entry.2) ws) []

/-- The winner selected for one path. -/
def winnerFor (logs : List (NodeId × List FileInfo)) (p : Path) : Option (FileInfo × NodeId) :=
  alookup (computeWinners logs) p

/-- The current records for path `p` of all node logs, in log-enumeration
order, each tagged with its node: the stream of candidates the winner fold
of `CloudSync.dispatch` consumes for `p`. -/
def currentsFor (logs : List (NodeId × List FileInfo)) (p : Path) : List (FileInfo × NodeId) :=
  logs.filterMap (fun e => (getLatestFileInfo e.2 p).map (fun fi => (fi, e.1)))

/-- The winner-selection step on a single path's candidate stream. -/
def winStep (o : Option (FileInfo × NodeId)) (x : FileInfo × NodeId) :
    Option (FileInfo × NodeId) :=
  match o with
  | none => some x
  | some w => if x.1.seq > w.1.seq then some x else some w

/-- Winner selection on a single path's candidate stream. -/
def winFold (l : List (FileInfo × NodeId)) : Option (FileInfo × NodeId) :=
  l.foldl winStep none

/-- The parts of the cloud state the apply loop mutates. -/
structure ApplyState where
  fs : List (Path × File)
  myLog : List FileInfo
  trash : List (Path × File)
deriving DecidableEq, Repr

/-- The body of the apply loop of `CloudSync.dispatch` (sync.py lines
218-242) for one winner.  Non-tombstone winner whose digest differs from
the local file's digest: run `crypto.expand` (modelled from the spec:
fetch the blob by digest, decrypt and write the local file, reporting
failure when the blob is absent) — note the source assigns the success
flag to `expand_ok` and never reads it — then append the winner's own
fields to this node's log when the winner's `seq` differs from this
node's last `seq` for the path.  Tombstone winner while the local file
exists: try `send2trash` (an `OSError` is caught and only logged), then
append the tombstone unconditionally. -/
def applyStep (hashFn decFn : Nat → Nat) (cache : List (Nat × Nat)) (trashFail : List Path)
    (st : ApplyState) (w : Path × FileInfo × NodeId) : ApplyState × List Effect :=
  let p := w.1
  let wfi := w.2.1
  let localHash := (alookup st.fs p).map (fun f => hashFn f.content)
  match wfi.hash with
  | some h =>
    if some h ≠ localHash then
      let (fs1, ok) :=
        match alookup cache h with
        | some blob => (aupdate st.fs p ⟨decFn blob, wfi.size.getD 0, wfi.mtime.getD 0⟩, true)
        | none => (st.fs, false)
      let (log1, tr1) :=
        if some wfi.seq ≠ getLastSeq st.myLog p then
          let fi : FileInfo := ⟨wfi.seq, wfi.path, wfi.size, wfi.hash, wfi.mtime⟩
          (st.myLog ++ [fi], [Effect.append fi])
        else (st.myLog, [])
      ({ st with fs := fs1, myLog := log1 }, Effect.expand p h ok :: tr1)
    else (st, [])
  | none =>
    if localHash.isSome then
      let (fs1, trash1, ok) :=
        match alookup st.fs p with
        | some f =>
          if p ∈ trashFail then (st.fs, st.trash, false)
          else (st.fs.filter (fun q => q.1 ≠ p), st.trash ++ [(p, f)], true)
        | none => (st.fs, st.trash, true)
      let tomb : FileInfo := ⟨wfi.seq, wfi.path, none, none, none⟩
      (⟨fs1, st.myLog ++ [tomb], trash1⟩, [Effect.toTrash p ok, Effect.append tomb])
    else (st, [])

/-- The apply loop of `CloudSync.dispatch` over the winner map, in its
insertion order. -/
def applyList (hashFn decFn : Nat → Nat) (cache : List (Nat × Nat)) (trashFail : List Path) :
    List (Path × FileInfo × NodeId) → ApplyState → ApplyState × List Effect
  | [], st => (st, [])
  | w :: rest, st =>
    let (st1, tr1) := applyStep hashFn decFn cache trashFail st w
    let (st2, tr2) := applyList hashFn decFn cache trashFail rest st1
    (st2, tr1 ++ tr2)

/-- `CloudSync.dispatch(event)` (sync.py lines 186-244): nothing at all
happens unless the event names a file with extension `.db`; otherwise the
winner map is computed from all logs and applied, and this node's own log
(read and written through `fs_db_this_node`) is stored back. -/
def cloudDispatch (hashFn decFn : Nat → Nat) (event : Option String) (s : CloudState) :
    CloudState × List Effect :=
  if event.map fileExtOf = some ".db" then
    let winners := computeWinners s.logs
    let myLog0 := (alookup s.logs s.myNode).getD []
    let (fin, tr) := applyList hashFn decFn s.cache s.trashFail winners ⟨s.fs, myLog0, s.trash⟩
    ({ s with fs := fin.fs, logs := aupdate s.logs s.myNode fin.myLog, trash := fin.trash }, tr)
  else (s, [])

/-- The `.append` effects of a trace whose record is for path `p`. -/
def appendsFor (p : Path) (tr : List Effect) : List FileInfo :=
  tr.filterMap (fun ef =>
    match ef with
    | Effect.append fi => if fi.path = p then some fi else none
    | _ => none)

/-- All records appended to this node's log during a pass, in order. -/
def allAppends (tr : List Effect) : List FileInfo :=
  tr.filterMap (fun ef =>
    match ef with
    | Effect.append fi => some fi
    | _ => none)

/-- Invariant of the shared sequence counter: every `seq` ever recorded in
a log was issued by the counter, hence is at most its current value. -/
def seqBound (st : LocalState) : Prop :=
  ∀ r ∈ st.log, r.seq ≤ st.miv

/-- A file is in sync with this node's log and the cache: the current
record's digest is the file's digest and the blob is cached.  On such a
file the created-or-updated loop of `LocalSync.dispatch` does nothing. -/
def goodFile (hashFn : Nat → Nat) (st : LocalState) (p : Path) (f : File) : Prop :=
  getMostRecentHash st.log p = some (hashFn f.content) ∧
  alookup st.cache (hashFn f.content) ≠ none

/-- A recorded path on which the deletion loop of `LocalSync.dispatch`
does nothing: the file still exists, or the current record is already a
tombstone (or absent). -/
def goodPath (st : LocalState) (p : Path) : Prop :=
  ¬(alookup st.fs p = none ∧ (getMostRecentHash st.log p).isSome)

/-- Two-node scenario for the spec's divergent-records example: node `a`
recorded `f` at seq 3, node `b` recorded `f` at seq 7. -/
def c1LogA : List FileInfo := [⟨3, "f", some 1, some 10, some 0⟩]

/-- See `c1LogA`. -/
def c1LogB : List FileInfo := [⟨7, "f", some 2, some 20, some 1⟩]

/-- Node `b` merging node `a`'s log whose winning record for `f` (seq 7,
digest 99) has no blob in the cache: the fetch fails. -/
def c2state : CloudState :=
  ⟨"b", [], [("a", [⟨7, "f", some 5, some 99, some 1⟩]), ("b", [])], [], [], []⟩

/-- Node `b` holding a local file `f` while node `a`'s log carries the
winning tombstone (seq 9), and `send2trash` fails on `f`. -/
def c3state : CloudState :=
  ⟨"b", [("f", ⟨20, 2, 0⟩)],
   [("a", [⟨9, "f", none, none, none⟩]), ("b", [⟨5, "f", some 2, some 20, some 0⟩])],
   [], [], ["f"]⟩

/-- A fresh node with one new local file `a` (content 1) and an empty log,
cache and counter: the first local dispatch both logs and caches it. -/
def c5state : LocalState := ⟨[("a", ⟨1, 1, 0⟩)], [], [], 0⟩

/-- The record the first local dispatch appends for `c5state`. -/
def c5rec : FileInfo := ⟨1, "a", some 1, some 1, some 0⟩

/-- A node whose log holds a synced record for `a` (digest 7, cached)
while the local file was deleted. -/
def c6state : LocalState := ⟨[], [⟨1, "a", some 1, some 7, some 0⟩], [(7, 7)], 1⟩

/-- Node `b` whose current record for `f` has the same seq 5 as node `a`'s
record but different fields; `a`'s record wins the enumeration-order
tie-break and its blob is cached, while `b`'s local file still has `b`'s
content. -/
def c7state : CloudState :=
  ⟨"b", [("f", ⟨20, 2, 0⟩)],
   [("a", [⟨5, "f", some 1, some 10, some 0⟩]), ("b", [⟨5, "f", some 2, some 20, some 0⟩])],
   [(10, 10)], [], []⟩

/-- A node with two local files and one tombstoned path `c`, fully synced
against its log, cache and counter after one dispatch. -/
def c9state : LocalState :=
  ⟨[("a", ⟨1, 1, 0⟩), ("b", ⟨2, 2, 0⟩)], [⟨3, "c", some 1, some 5, some 0⟩], [], 3⟩

/-- Equal-seq tie for `f` between nodes `a` and `b` (both seq 5). -/
def c10LogA : List FileInfo := [⟨5, "f", some 1, some 10, some 0⟩]

/-- See `c10LogA`. -/
def c10LogB : List FileInfo := [⟨5, "f", some 2, some 20, some 0⟩]

section AssocLemmas

variable {α β : Type} [DecidableEq α]

theorem alookup_append_of_some {l l' : List (α × β)} {x : α} {b : β}
    (h : alookup l x = some b) : alookup (l ++ l') x = some b := by
  induction l with
  | nil => simp [alookup] at h
  | cons kv rest ih =>
    obtain ⟨k, v⟩ := kv
    by_cases hk : k = x
    · simpa [alookup, hk] using h
    · simp only [alookup, List.cons_append, if_neg hk] at h ⊢
      exact ih h

theorem alookup_append_of_none {l l' : List (α × β)} {x : α}
    (h : alookup l x = none) : alookup (l ++ l') x = alookup l' x := by
  induction l with
  | nil => simp
  | cons kv rest ih =>
    obtain ⟨k, v⟩ := kv
    by_cases hk : k = x
    · simp [alookup, hk] at h
    · simp only [alookup, List.cons_append, if_neg hk] at h ⊢
      exact ih h

theorem alookup_aupdate_self (l : List (α × β)) (a : α) (b : β) :
    alookup (aupdate l a b) a = some b := by
  induction l with
  | nil => simp [aupdate, alookup]
  | cons kv rest ih =>
    obtain ⟨k, v⟩ := kv
    by_cases hk : k = a
    · simp [aupdate, alookup, hk]
    · simp [aupdate, alookup, hk, ih]

theorem alookup_aupdate_ne {a x : α} (l : List (α × β)) (b : β) (h : a ≠ x) :
    alookup (aupdate l a b) x = alookup l x := by
  induction l with
  | nil => simp [aupdate, alookup, h]
  | cons kv rest ih =>
    obtain ⟨k, v⟩ := kv
    by_cases hk : k = a
    · subst hk
      simp [aupdate, alookup, h]
    · simp [aupdate, alookup, hk, ih]

theorem alookup_ne_none_of_mem {l : List (α × β)} {p : α} {f : β}
    (h : (p, f) ∈ l) : alookup l p ≠ none := by
  induction l with
  | nil => simp at h
  | cons kv rest ih =>
    obtain ⟨k, v⟩ := kv
    by_cases hk : k = p
    · simp [alookup, hk]
    · rcases List.mem_cons.1 h with h1 | h1
      · exact absurd (congrArg Prod.fst h1).symm hk
      · simp only [alookup, if_neg hk]
        exact ih h1

theorem not_mem_keys_of_alookup_none {l : List (α × β)} {p : α}
    (h : alookup l p = none) : p ∉ l.map Prod.fst := by
  intro hmem
  obtain ⟨pf, hpf, he⟩ := List.mem_map.1 hmem
  exact alookup_ne_none_of_mem (he ▸ hpf : (p, pf.2) ∈ l) h

theorem storeBlob_mono {c : List (Nat × Nat)} {d : Nat} {b : Nat} (d' b' : Nat)
    (h : alookup c d = some b) : alookup (storeBlob c d' b') d = some b := by
  unfold storeBlob
  split
  · exact alookup_append_of_some h
  · exact h

theorem storeBlob_self (c : List (Nat × Nat)) (d b : Nat) :
    alookup (storeBlob c d b) d ≠ none := by
  unfold storeBlob
  by_cases h : alookup c d = none
  · rw [if_pos h, alookup_append_of_none h]
    simp [alookup]
  · rw [if_neg h]
    exact h

theorem storeBlob_of_present {c : List (Nat × Nat)} {d : Nat} (b : Nat)
    (h : alookup c d ≠ none) : storeBlob c d b = c := by
  unfold storeBlob
  exact if_neg h

end AssocLemmas

section LatestLemmas

theorem getLatestFileInfo_append (lg ext : List FileInfo) (p : Path) :
    getLatestFileInfo (lg ++ ext) p = ext.foldl (latestStep p) (getLatestFileInfo lg p) :=
  List.foldl_append _ _ _ _

theorem latestStep_ne {p : Path} {r : FileInfo} (o : Option FileInfo) (hp : r.path ≠ p) :
    latestStep p o r = o :=
  if_neg hp

theorem latestStep_none {p : Path} {r : FileInfo} (hp : r.path = p) :
    latestStep p none r = some r := by
  simp [latestStep, hp]

theorem latestStep_some_le {p : Path} {b r : FileInfo} (hp : r.path = p) (hb : b.seq ≤ r.seq) :
    latestStep p (some b) r = some r := by
  simp [latestStep, hp, hb]

theorem latestStep_some_gt {p : Path} {b r : FileInfo} (hp : r.path = p) (hb : ¬b.seq ≤ r.seq) :
    latestStep p (some b) r = some b := by
  simp [latestStep, hp, hb]

theorem foldl_latestStep_of_ne {p : Path} :
    ∀ (ext : List FileInfo) (o : Option FileInfo), (∀ r ∈ ext, r.path ≠ p) →
      ext.foldl (latestStep p) o = o := by
  intro ext
  induction ext with
  | nil => intro o _; rfl
  | cons r rest ih =>
    intro o h
    rw [List.foldl_cons]
    have hr : r.path ≠ p := h r (List.mem_cons_self r rest)
    rw [show latestStep p o r = o from if_neg hr]
    exact ih o fun x hx => h x (List.mem_cons_of_mem r hx)

theorem getLatestFileInfo_append_ne {lg : List FileInfo} {p : Path} (ext : List FileInfo)
    (h : ∀ r ∈ ext, r.path ≠ p) :
    getLatestFileInfo (lg ++ ext) p = getLatestFileInfo lg p := by
  rw [getLatestFileInfo_append]
  exact foldl_latestStep_of_ne ext _ h

theorem foldl_latestStep_mem {p : Path} :
    ∀ (lg : List FileInfo) (o : Option FileInfo) (r : FileInfo),
      lg.foldl (latestStep p) o = some r → o = some r ∨ (r ∈ lg ∧ r.path = p) := by
  intro lg
  induction lg with
  | nil => intro o r h; exact Or.inl h
  | cons a rest ih =>
    intro o r h
    rw [List.foldl_cons] at h
    rcases ih (latestStep p o a) r h with h1 | h1
    · by_cases ha : a.path = p
      · cases o with
        | none =>
          rw [latestStep_none ha] at h1
          have hra : r = a := (Option.some_inj.1 h1).symm
          exact Or.inr ⟨hra ▸ List.mem_cons_self a rest, hra ▸ ha⟩
        | some b =>
          by_cases hb : b.seq ≤ a.seq
          · rw [latestStep_some_le ha hb] at h1
            have hra : r = a := (Option.some_inj.1 h1).symm
            exact Or.inr ⟨hra ▸ List.mem_cons_self a rest, hra ▸ ha⟩
          · rw [latestStep_some_gt ha hb] at h1
            exact Or.inl h1
      · rw [latestStep_ne o ha] at h1
        exact Or.inl h1
    · exact Or.inr ⟨List.mem_cons_of_mem a h1.1, h1.2⟩

theorem getLatestFileInfo_mem {lg : List FileInfo} {p : Path} {r : FileInfo}
    (h : getLatestFileInfo lg p = some r) : r ∈ lg ∧ r.path = p := by
  rcases foldl_latestStep_mem lg none r h with h1 | h1
  · exact absurd h1 (by simp)
  · exact h1

theorem foldl_latestStep_isSome {p : Path} :
    ∀ (lg : List FileInfo) (o : Option FileInfo),
      (lg.foldl (latestStep p) o).isSome ↔ o.isSome ∨ ∃ r ∈ lg, r.path = p := by
  intro lg
  induction lg with
  | nil => intro o; simp
  | cons a rest ih =>
    intro o
    rw [List.foldl_cons, ih]
    by_cases ha : a.path = p
    · constructor
      · intro _
        exact Or.inr ⟨a, List.mem_cons_self a rest, ha⟩
      · intro _
        left
        cases o with
        | none => rw [latestStep_none ha]; rfl
        | some b =>
          by_cases hb : b.seq ≤ a.seq
          · rw [latestStep_some_le ha hb]; rfl
          · rw [latestStep_some_gt ha hb]; rfl
    · rw [latestStep_ne o ha]
      constructor
      · intro h
        rcases h with h | ⟨r, hr, hrp⟩
        · exact Or.inl h
        · exact Or.inr ⟨r, List.mem_cons_of_mem a hr, hrp⟩
      · intro h
        rcases h with h | ⟨r, hr, hrp⟩
        · exact Or.inl h
        · rcases List.mem_cons.1 hr with h1 | h1
          · exact absurd (h1 ▸ hrp) ha
          · exact Or.inr ⟨r, h1, hrp⟩

theorem getLatestFileInfo_isSome_iff {lg : List FileInfo} {p : Path} :
    (getLatestFileInfo lg p).isSome ↔ ∃ r ∈ lg, r.path = p := by
  unfold getLatestFileInfo
  rw [foldl_latestStep_isSome]
  simp

theorem getLatestFileInfo_append_dominating {lg : List FileInfo} {p : Path} {r : FileInfo}
    (hp : r.path = p) (hdom : ∀ b, getLatestFileInfo lg p = some b → b.seq ≤ r.seq) :
    getLatestFileInfo (lg ++ [r]) p = some r := by
  rw [getLatestFileInfo_append, List.foldl_cons, List.foldl_nil]
  cases h : getLatestFileInfo lg p with
  | none => exact latestStep_none hp
  | some b => exact latestStep_some_le hp (hdom b h)

theorem mem_getPaths {lg : List FileInfo} {p : Path} :
    p ∈ getPaths lg ↔ ∃ r ∈ lg, r.path = p := by
  unfold getPaths
  rw [List.mem_dedup, List.mem_map]

theorem getPaths_nodup (lg : List FileInfo) : (getPaths lg).Nodup :=
  List.nodup_dedup _

theorem mem_getPaths_iff_isSome {lg : List FileInfo} {p : Path} :
    p ∈ getPaths lg ↔ (getLatestFileInfo lg p).isSome := by
  rw [mem_getPaths, getLatestFileInfo_isSome_iff]

end LatestLemmas

section WinnerLemmas

theorem alookup_winnersStep_ne {nid : NodeId} {lg : List FileInfo}
    {ws : List (Path × FileInfo × NodeId)} {q p : Path} (h : q ≠ p) :
    alookup (winnersStep nid lg ws q) p = alookup ws p := by
  cases hfi : getLatestFileInfo lg q with
  | none => simp [winnersStep, hfi]
  | some fi =>
    cases hw : alookup ws q with
    | none => simp [winnersStep, hfi, hw, alookup_aupdate_ne ws (fi, nid) h]
    | some w =>
      by_cases hs : fi.seq > w.1.seq
      · simp [winnersStep, hfi, hw, hs, alookup_aupdate_ne ws (fi, nid) h]
      · simp [winnersStep, hfi, hw, hs]

theorem foldl_winnersStep_not_mem {nid : NodeId} {lg : List FileInfo} {p : Path} :
    ∀ (l : List Path) (ws : List (Path × FileInfo × NodeId)), p ∉ l →
      alookup (l.foldl (winnersStep nid lg) ws) p = alookup ws p := by
  intro l
  induction l with
  | nil => intro ws _; rfl
  | cons q rest ih =>
    intro ws h
    rw [List.foldl_cons, ih _ (fun hm => h (List.mem_cons_of_mem q hm)),
      alookup_winnersStep_ne (fun he => h (by rw [← he]; exact List.mem_cons_self q rest))]

theorem alookup_winnersStep_self {nid : NodeId} {lg : List FileInfo}
    {ws : List (Path × FileInfo × NodeId)} {p : Path} {fi : FileInfo}
    (hfi : getLatestFileInfo lg p = some fi) :
    alookup (winnersStep nid lg ws p) p = winStep (alookup ws p) (fi, nid) := by
  cases hw : alookup ws p with
  | none => simp [winnersStep, hfi, hw, alookup_aupdate_self, winStep]
  | some w =>
    by_cases hs : fi.seq > w.1.seq
    · simp [winnersStep, hfi, hw, hs, alookup_aupdate_self, winStep]
    · simp [winnersStep, hfi, hw, hs, winStep]

theorem foldl_winnersStep_mem {nid : NodeId} {lg : List FileInfo} {p : Path} {fi : FileInfo}
    (hfi : getLatestFileInfo lg p = some fi) :
    ∀ (l : List Path) (ws : List (Path × FileInfo × NodeId)), l.Nodup → p ∈ l →
      alookup (l.foldl (winnersStep nid lg) ws) p = winStep (alookup ws p) (fi, nid) := by
  intro l
  induction l with
  | nil => intro ws _ h; exact absurd h (List.not_mem_nil p)
  | cons q rest ih =>
    intro ws hnd hmem
    rw [List.foldl_cons]
    by_cases hq : q = p
    · subst hq
      rw [foldl_winnersStep_not_mem rest _ (List.nodup_cons.1 hnd).1,
        alookup_winnersStep_self hfi]
    · rcases List.mem_cons.1 hmem with h1 | h1
      · exact absurd h1.symm hq
      · rw [ih _ (List.nodup_cons.1 hnd).2 h1, alookup_winnersStep_ne hq]

theorem winStep_none (x : FileInfo × NodeId) : winStep none x = some x :=
  rfl

theorem winStep_some (w x : FileInfo × NodeId) :
    winStep (some w) x = if x.1.seq > w.1.seq then some x else some w :=
  rfl

theorem alookup_foldl_logs {p : Path} :
    ∀ (logs : List (NodeId × List FileInfo)) (ws : List (Path × FileInfo × NodeId)),
      alookup (logs.foldl
          (fun ws entry => (getPaths entry.2).foldl (winnersStep entry.1 entry.2) ws) ws) p =
        (currentsFor logs p).foldl winStep (alookup ws p) := by
  intro logs
  induction logs with
  | nil => intro ws; rfl
  | cons e rest ih =>
    intro ws
    rw [List.foldl_cons, ih]
    unfold currentsFor
    cases hfi : getLatestFileInfo e.2 p with
    | none =>
      have hnm : p ∉ getPaths e.2 := by
        rw [mem_getPaths_iff_isSome, hfi]
        simp
      rw [foldl_winnersStep_not_mem _ _ hnm,
        List.filterMap_cons_none (by simp [hfi])]
    | some fi =>
      have hm : p ∈ getPaths e.2 := by
        rw [mem_getPaths_iff_isSome, hfi]
        rfl
      rw [foldl_winnersStep_mem hfi _ _ (getPaths_nodup e.2) hm,
        List.filterMap_cons_some (by rw [hfi]; rfl), List.foldl_cons]

theorem winnerFor_eq_winFold (logs : List (NodeId × List FileInfo)) (p : Path) :
    winnerFor logs p = winFold (currentsFor logs p) := by
  unfold winnerFor computeWinners winFold
  rw [alookup_foldl_logs]
  rfl

theorem winFold_stay {w : FileInfo × NodeId} :
    ∀ (l : List (FileInfo × NodeId)), (∀ y ∈ l, y.1.seq ≤ w.1.seq) →
      l.foldl winStep (some w) = some w := by
  intro l
  induction l with
  | nil => intro _; rfl
  | cons a rest ih =>
    intro h
    rw [List.foldl_cons]
    have ha : ¬a.1.seq > w.1.seq := not_lt.2 (h a (List.mem_cons_self a rest))
    rw [show winStep (some w) a = some w from if_neg ha]
    exact ih fun y hy => h y (List.mem_cons_of_mem a hy)

theorem winFold_acc_mem :
    ∀ (l : List (FileInfo × NodeId)) (o : Option (FileInfo × NodeId)),
      l.foldl winStep o = o ∨ ∃ y ∈ l, l.foldl winStep o = some y := by
  intro l
  induction l with
  | nil => intro o; exact Or.inl rfl
  | cons a rest ih =>
    intro o
    rw [List.foldl_cons]
    have hstep : winStep o a = o ∨ winStep o a = some a := by
      cases o with
      | none => exact Or.inr rfl
      | some w =>
        rw [winStep_some]
        by_cases hs : a.1.seq > w.1.seq
        · rw [if_pos hs]; exact Or.inr rfl
        · rw [if_neg hs]; exact Or.inl rfl
    rcases ih (winStep o a) with h1 | ⟨y, hy, h1⟩
    · rcases hstep with h2 | h2
      · exact Or.inl (h1.trans h2)
      · exact Or.inr ⟨a, List.mem_cons_self a rest, h1.trans h2⟩
    · exact Or.inr ⟨y, List.mem_cons_of_mem a hy, h1⟩

theorem winFold_first {x : FileInfo × NodeId} {l₁ l₂ : List (FileInfo × NodeId)}
    (h₁ : ∀ y ∈ l₁, y.1.seq < x.1.seq ∨ y = x) (h₂ : ∀ y ∈ l₂, y.1.seq ≤ x.1.seq) :
    winFold (l₁ ++ x :: l₂) = some x := by
  unfold winFold
  rw [List.foldl_append, List.foldl_cons]
  have hacc : winStep (l₁.foldl winStep none) x = some x := by
    rcases winFold_acc_mem l₁ none with h | ⟨y, hy, h⟩
    · rw [h]; rfl
    · rw [h, winStep_some]
      rcases h₁ y hy with hlt | heq
      · exact if_pos hlt
      · subst heq
        rw [if_neg (lt_irrefl y.1.seq)]
  rw [hacc]
  exact winFold_stay l₂ h₂

end WinnerLemmas

section LocalStepLemmas

variable (hashFn encFn : Nat → Nat) (st : LocalState) (p : Path) (f : File)

theorem step1_pos (h : some (hashFn f.content) ≠ getMostRecentHash st.log p) :
    step1 hashFn encFn st p f =
      ({ fs := st.fs,
         log := st.log ++ [⟨nextMiv st.miv, p, some f.size, some (hashFn f.content), some f.mtime⟩],
         cache := storeBlob st.cache (hashFn f.content) (encFn f.content),
         miv := nextMiv st.miv },
       Effect.append ⟨nextMiv st.miv, p, some f.size, some (hashFn f.content), some f.mtime⟩ ::
         (if alookup st.cache (hashFn f.content) = none then
            [Effect.store (hashFn f.content) (encFn f.content)]
          else [])) := by
  simp only [step1, if_pos h, List.singleton_append]

theorem step1_neg (h : some (hashFn f.content) = getMostRecentHash st.log p) :
    step1 hashFn encFn st p f =
      ({ st with cache := storeBlob st.cache (hashFn f.content) (encFn f.content) },
       if alookup st.cache (hashFn f.content) = none then
         [Effect.store (hashFn f.content) (encFn f.content)]
       else []) := by
  simp only [step1, h, ne_eq, not_true_eq_false, if_false]
  rfl

theorem step1_fs : (step1 hashFn encFn st p f).1.fs = st.fs := by
  by_cases h : some (hashFn f.content) = getMostRecentHash st.log p
  · rw [step1_neg hashFn encFn st p f h]
  · rw [step1_pos hashFn encFn st p f h]

theorem step1_cache_eq :
    (step1 hashFn encFn st p f).1.cache =
      storeBlob st.cache (hashFn f.content) (encFn f.content) := by
  by_cases h : some (hashFn f.content) = getMostRecentHash st.log p
  · rw [step1_neg hashFn encFn st p f h]
  · rw [step1_pos hashFn encFn st p f h]

theorem step1_cache_mono {d b : Nat} (hd : alookup st.cache d = some b) :
    alookup (step1 hashFn encFn st p f).1.cache d = some b := by
  rw [step1_cache_eq]
  exact storeBlob_mono _ _ hd

theorem step1_miv_le : st.miv ≤ (step1 hashFn encFn st p f).1.miv := by
  by_cases h : some (hashFn f.content) = getMostRecentHash st.log p
  · rw [step1_neg hashFn encFn st p f h]
  · rw [step1_pos hashFn encFn st p f h]
    exact Nat.le_succ _

theorem step1_seqBound (hsb : seqBound st) : seqBound (step1 hashFn encFn st p f).1 := by
  by_cases h : some (hashFn f.content) = getMostRecentHash st.log p
  · rw [step1_neg hashFn encFn st p f h]
    exact hsb
  · rw [step1_pos hashFn encFn st p f h]
    intro r hr
    rcases List.mem_append.1 hr with h1 | h1
    · exact le_trans (hsb r h1) (Nat.le_succ _)
    · rw [List.mem_singleton.1 h1]

theorem step1_latest_ne {q : Path} (hq : q ≠ p) :
    getLatestFileInfo (step1 hashFn encFn st p f).1.log q = getLatestFileInfo st.log q := by
  by_cases h : some (hashFn f.content) = getMostRecentHash st.log p
  · rw [step1_neg hashFn encFn st p f h]
  · rw [step1_pos hashFn encFn st p f h]
    exact getLatestFileInfo_append_ne _ (by
      intro r hr
      rw [List.mem_singleton.1 hr]
      exact fun he => hq he.symm)

theorem step1_log_ext :
    ∃ ext, (step1 hashFn encFn st p f).1.log = st.log ++ ext ∧ ∀ r ∈ ext, r.path = p := by
  by_cases h : some (hashFn f.content) = getMostRecentHash st.log p
  · rw [step1_neg hashFn encFn st p f h]
    exact ⟨[], by simp⟩
  · rw [step1_pos hashFn encFn st p f h]
    refine ⟨[⟨nextMiv st.miv, p, some f.size, some (hashFn f.content), some f.mtime⟩], rfl, ?_⟩
    intro r hr
    rw [List.mem_singleton.1 hr]

theorem step1_good_self (hsb : seqBound st) :
    goodFile hashFn (step1 hashFn encFn st p f).1 p f := by
  by_cases h : some (hashFn f.content) = getMostRecentHash st.log p
  · rw [step1_neg hashFn encFn st p f h]
    exact ⟨h.symm, storeBlob_self _ _ _⟩
  · rw [step1_pos hashFn encFn st p f h]
    constructor
    · unfold getMostRecentHash
      rw [getLatestFileInfo_append_dominating rfl (fun b hb =>
        le_trans (hsb b (getLatestFileInfo_mem hb).1) (Nat.le_succ _))]
      rfl
    · exact storeBlob_self _ _ _

theorem step1_good_pres {q : Path} {g : File} (hq : q ≠ p) (hg : goodFile hashFn st q g) :
    goodFile hashFn (step1 hashFn encFn st p f).1 q g := by
  constructor
  · unfold getMostRecentHash
    rw [step1_latest_ne hashFn encFn st p f hq]
    exact hg.1
  · intro hn
    rcases Option.ne_none_iff_exists'.1 hg.2 with ⟨b, hb⟩
    exact absurd (step1_cache_mono hashFn encFn st p f hb) (by rw [hn]; simp)

theorem step1_noop (hg : goodFile hashFn st p f) : step1 hashFn encFn st p f = (st, []) := by
  rw [step1_neg hashFn encFn st p f hg.1.symm, if_neg hg.2,
    storeBlob_of_present _ hg.2]

theorem step1_appendsFor_ne {q : Path} (hq : q ≠ p) :
    appendsFor q (step1 hashFn encFn st p f).2 = [] := by
  by_cases h : some (hashFn f.content) = getMostRecentHash st.log p
  · rw [step1_neg hashFn encFn st p f h]
    by_cases hc : alookup st.cache (hashFn f.content) = none
    · rw [if_pos hc]; rfl
    · rw [if_neg hc]; rfl
  · rw [step1_pos hashFn encFn st p f h]
    unfold appendsFor
    rw [List.filterMap_cons_none (by simp [Ne.symm hq])]
    by_cases hc : alookup st.cache (hashFn f.content) = none
    · rw [if_pos hc]; rfl
    · rw [if_neg hc]; rfl

end LocalStepLemmas

section Pass1Lemmas

theorem appendsFor_append (q : Path) (tr1 tr2 : List Effect) :
    appendsFor q (tr1 ++ tr2) = appendsFor q tr1 ++ appendsFor q tr2 :=
  List.filterMap_append _ _ _

theorem pass1_cons (hashFn encFn : Nat → Nat) (p : Path) (f : File)
    (rest : List (Path × File)) (st : LocalState) :
    pass1 hashFn encFn ((p, f) :: rest) st =
      ((pass1 hashFn encFn rest (step1 hashFn encFn st p f).1).1,
       (step1 hashFn encFn st p f).2 ++ (pass1 hashFn encFn rest (step1 hashFn encFn st p f).1).2) :=
  rfl

variable (hashFn encFn : Nat → Nat)

theorem pass1_fs : ∀ (l : List (Path × File)) (st : LocalState),
    (pass1 hashFn encFn l st).1.fs = st.fs := by
  intro l
  induction l with
  | nil => intro st; rfl
  | cons pf rest ih =>
    obtain ⟨p, f⟩ := pf
    intro st
    rw [pass1_cons, ih, step1_fs]

theorem pass1_cache_mono : ∀ (l : List (Path × File)) (st : LocalState) {d b : Nat},
    alookup st.cache d = some b → alookup (pass1 hashFn encFn l st).1.cache d = some b := by
  intro l
  induction l with
  | nil => intro st d b h; exact h
  | cons pf rest ih =>
    obtain ⟨p, f⟩ := pf
    intro st d b h
    rw [pass1_cons]
    exact ih _ (step1_cache_mono hashFn encFn st p f h)

theorem pass1_miv_le : ∀ (l : List (Path × File)) (st : LocalState),
    st.miv ≤ (pass1 hashFn encFn l st).1.miv := by
  intro l
  induction l with
  | nil => intro st; exact le_refl _
  | cons pf rest ih =>
    obtain ⟨p, f⟩ := pf
    intro st
    rw [pass1_cons]
    exact le_trans (step1_miv_le hashFn encFn st p f) (ih _)

theorem pass1_seqBound : ∀ (l : List (Path × File)) (st : LocalState),
    seqBound st → seqBound (pass1 hashFn encFn l st).1 := by
  intro l
  induction l with
  | nil => intro st h; exact h
  | cons pf rest ih =>
    obtain ⟨p, f⟩ := pf
    intro st h
    rw [pass1_cons]
    exact ih _ (step1_seqBound hashFn encFn st p f h)

theorem pass1_latest_ne : ∀ (l : List (Path × File)) (st : LocalState) {q : Path},
    q ∉ l.map Prod.fst →
    getLatestFileInfo (pass1 hashFn encFn l st).1.log q = getLatestFileInfo st.log q := by
  intro l
  induction l with
  | nil => intro st q _; rfl
  | cons pf rest ih =>
    obtain ⟨p, f⟩ := pf
    intro st q hq
    have hq1 : q ≠ p := by intro he; exact hq (by simp [he])
    have hq2 : q ∉ rest.map Prod.fst := by intro hm; exact hq (by simp [hm])
    rw [pass1_cons, ih _ hq2, step1_latest_ne hashFn encFn st p f hq1]

theorem pass1_log_ext : ∀ (l : List (Path × File)) (st : LocalState),
    ∃ ext, (pass1 hashFn encFn l st).1.log = st.log ++ ext ∧
      ∀ r ∈ ext, r.path ∈ l.map Prod.fst := by
  intro l
  induction l with
  | nil => intro st; exact ⟨[], by simp [pass1]⟩
  | cons pf rest ih =>
    obtain ⟨p, f⟩ := pf
    intro st
    rw [pass1_cons]
    obtain ⟨e1, he1, hp1⟩ := step1_log_ext hashFn encFn st p f
    obtain ⟨e2, he2, hp2⟩ := ih (step1 hashFn encFn st p f).1
    refine ⟨e1 ++ e2, by rw [he2, he1, List.append_assoc], ?_⟩
    intro r hr
    rcases List.mem_append.1 hr with h1 | h1
    · rw [List.map_cons, hp1 r h1]
      exact List.mem_cons_self p _
    · exact List.mem_cons_of_mem _ (hp2 r h1)

theorem pass1_good_pres : ∀ (l : List (Path × File)) (st : LocalState) {q : Path} {g : File},
    q ∉ l.map Prod.fst → goodFile hashFn st q g →
    goodFile hashFn (pass1 hashFn encFn l st).1 q g := by
  intro l
  induction l with
  | nil => intro st q g _ h; exact h
  | cons pf rest ih =>
    obtain ⟨p, f⟩ := pf
    intro st q g hq hg
    have hq1 : q ≠ p := by intro he; exact hq (by simp [he])
    have hq2 : q ∉ rest.map Prod.fst := by intro hm; exact hq (by simp [hm])
    rw [pass1_cons]
    exact ih _ hq2 (step1_good_pres hashFn encFn st p f hq1 hg)

theorem pass1_good_all : ∀ (l : List (Path × File)) (st : LocalState),
    (l.map Prod.fst).Nodup → seqBound st →
    ∀ pf ∈ l, goodFile hashFn (pass1 hashFn encFn l st).1 pf.1 pf.2 := by
  intro l
  induction l with
  | nil => intro st _ _ pf h; exact absurd h (List.not_mem_nil pf)
  | cons pf0 rest ih =>
    obtain ⟨p, f⟩ := pf0
    intro st hnd hsb pf hpf
    rw [List.map_cons, List.nodup_cons] at hnd
    rw [pass1_cons]
    rcases List.mem_cons.1 hpf with h1 | h1
    · subst h1
      exact pass1_good_pres hashFn encFn rest _ hnd.1
        (step1_good_self hashFn encFn st p f hsb)
    · exact ih _ hnd.2 (step1_seqBound hashFn encFn st p f hsb) pf h1

theorem pass1_noop : ∀ (l : List (Path × File)) (st : LocalState),
    (∀ pf ∈ l, goodFile hashFn st pf.1 pf.2) → pass1 hashFn encFn l st = (st, []) := by
  intro l
  induction l with
  | nil => intro st _; rfl
  | cons pf rest ih =>
    obtain ⟨p, f⟩ := pf
    intro st h
    rw [pass1_cons, step1_noop hashFn encFn st p f (h (p, f) (List.mem_cons_self _ _)),
      ih st (fun x hx => h x (List.mem_cons_of_mem _ hx))]
    rfl

theorem pass1_appendsFor_ne : ∀ (l : List (Path × File)) (st : LocalState) {q : Path},
    q ∉ l.map Prod.fst → appendsFor q (pass1 hashFn encFn l st).2 = [] := by
  intro l
  induction l with
  | nil => intro st q _; rfl
  | cons pf rest ih =>
    obtain ⟨p, f⟩ := pf
    intro st q hq
    have hq1 : q ≠ p := by intro he; exact hq (by simp [he])
    have hq2 : q ∉ rest.map Prod.fst := by intro hm; exact hq (by simp [hm])
    rw [pass1_cons, appendsFor_append, step1_appendsFor_ne hashFn encFn st p f hq1,
      ih _ hq2]
    rfl

end Pass1Lemmas

section Pass2Lemmas

theorem step2_pos (st : LocalState) (p : Path) (hfs : alookup st.fs p = none)
    (hh : (getMostRecentHash st.log p).isSome) :
    step2 st p =
      ({ fs := st.fs, log := st.log ++ [⟨nextMiv st.miv, p, none, none, none⟩],
         cache := st.cache, miv := nextMiv st.miv },
       [Effect.append ⟨nextMiv st.miv, p, none, none, none⟩]) := by
  unfold step2
  rw [if_pos ⟨hfs, hh⟩]

theorem step2_neg (st : LocalState) (p : Path) (h : goodPath st p) : step2 st p = (st, []) := by
  unfold step2
  rw [if_neg h]

theorem step2_goodPath_cases (st : LocalState) (p : Path) :
    goodPath st p ∨
      (alookup st.fs p = none ∧ (getMostRecentHash st.log p).isSome) := by
  by_cases h : alookup st.fs p = none ∧ (getMostRecentHash st.log p).isSome
  · exact Or.inr h
  · exact Or.inl h

theorem step2_fs (st : LocalState) (p : Path) : (step2 st p).1.fs = st.fs := by
  rcases step2_goodPath_cases st p with h | ⟨h1, h2⟩
  · rw [step2_neg st p h]
  · rw [step2_pos st p h1 h2]

theorem step2_cache (st : LocalState) (p : Path) : (step2 st p).1.cache = st.cache := by
  rcases step2_goodPath_cases st p with h | ⟨h1, h2⟩
  · rw [step2_neg st p h]
  · rw [step2_pos st p h1 h2]

theorem step2_miv_le (st : LocalState) (p : Path) : st.miv ≤ (step2 st p).1.miv := by
  rcases step2_goodPath_cases st p with h | ⟨h1, h2⟩
  · rw [step2_neg st p h]
  · rw [step2_pos st p h1 h2]
    exact Nat.le_succ _

theorem step2_seqBound (st : LocalState) (p : Path) (hsb : seqBound st) :
    seqBound (step2 st p).1 := by
  rcases step2_goodPath_cases st p with h | ⟨h1, h2⟩
  · rw [step2_neg st p h]
    exact hsb
  · rw [step2_pos st p h1 h2]
    intro r hr
    rcases List.mem_append.1 hr with hm | hm
    · exact le_trans (hsb r hm) (Nat.le_succ _)
    · rw [List.mem_singleton.1 hm]

theorem step2_latest_ne (st : LocalState) (p : Path) {q : Path} (hq : q ≠ p) :
    getLatestFileInfo (step2 st p).1.log q = getLatestFileInfo st.log q := by
  rcases step2_goodPath_cases st p with h | ⟨h1, h2⟩
  · rw [step2_neg st p h]
  · rw [step2_pos st p h1 h2]
    exact getLatestFileInfo_append_ne _ (by
      intro r hr
      rw [List.mem_singleton.1 hr]
      exact Ne.symm hq)

theorem step2_log_ext (st : LocalState) (p : Path) :
    ∃ ext, (step2 st p).1.log = st.log ++ ext ∧ ∀ r ∈ ext, r.path = p := by
  rcases step2_goodPath_cases st p with h | ⟨h1, h2⟩
  · rw [step2_neg st p h]
    exact ⟨[], by simp⟩
  · rw [step2_pos st p h1 h2]
    refine ⟨[⟨nextMiv st.miv, p, none, none, none⟩], rfl, ?_⟩
    intro r hr
    rw [List.mem_singleton.1 hr]

theorem step2_goodPath_self (st : LocalState) (p : Path) (hsb : seqBound st) :
    goodPath (step2 st p).1 p := by
  rcases step2_goodPath_cases st p with h | ⟨h1, h2⟩
  · rw [step2_neg st p h]
    exact h
  · rw [step2_pos st p h1 h2]
    intro hc
    have hlat : getLatestFileInfo
        (st.log ++ [⟨nextMiv st.miv, p, none, none, none⟩]) p =
        some ⟨nextMiv st.miv, p, none, none, none⟩ :=
      getLatestFileInfo_append_dominating rfl (fun b hb =>
        le_trans (hsb b (getLatestFileInfo_mem hb).1) (Nat.le_succ _))
    have := hc.2
    unfold getMostRecentHash at this
    rw [hlat] at this
    simp at this

theorem step2_goodPath_pres (st : LocalState) (p : Path) {q : Path} (hq : q ≠ p)
    (hg : goodPath st q) : goodPath (step2 st p).1 q := by
  intro hc
  apply hg
  refine ⟨?_, ?_⟩
  · rw [← step2_fs st p]
    exact hc.1
  · have := hc.2
    unfold getMostRecentHash at this ⊢
    rw [step2_latest_ne st p hq] at this
    exact this

theorem step2_goodFile_pres (hashFn : Nat → Nat) (st : LocalState) (p : Path) {q : Path}
    {g : File} (hfsq : alookup st.fs q ≠ none) (hg : goodFile hashFn st q g) :
    goodFile hashFn (step2 st p).1 q g := by
  by_cases hpq : p = q
  · subst hpq
    rw [step2_neg st p (fun hc => hfsq hc.1)]
    exact hg
  · constructor
    · unfold getMostRecentHash
      rw [step2_latest_ne st p (fun he => hpq he.symm)]
      exact hg.1
    · rw [step2_cache st p]
      exact hg.2

theorem step2_appendsFor_ne (st : LocalState) (p : Path) {q : Path} (hq : q ≠ p) :
    appendsFor q (step2 st p).2 = [] := by
  rcases step2_goodPath_cases st p with h | ⟨h1, h2⟩
  · rw [step2_neg st p h]
    rfl
  · rw [step2_pos st p h1 h2]
    unfold appendsFor
    rw [List.filterMap_cons_none (by simp [Ne.symm hq])]
    rfl

theorem pass2_cons (p : Path) (rest : List Path) (st : LocalState) :
    pass2 (p :: rest) st =
      ((pass2 rest (step2 st p).1).1,
       (step2 st p).2 ++ (pass2 rest (step2 st p).1).2) :=
  rfl

theorem pass2_fs : ∀ (l : List Path) (st : LocalState), (pass2 l st).1.fs = st.fs := by
  intro l
  induction l with
  | nil => intro st; rfl
  | cons p rest ih =>
    intro st
    rw [pass2_cons, ih, step2_fs]

theorem pass2_cache : ∀ (l : List Path) (st : LocalState), (pass2 l st).1.cache = st.cache := by
  intro l
  induction l with
  | nil => intro st; rfl
  | cons p rest ih =>
    intro st
    rw [pass2_cons, ih, step2_cache]

theorem pass2_seqBound : ∀ (l : List Path) (st : LocalState),
    seqBound st → seqBound (pass2 l st).1 := by
  intro l
  induction l with
  | nil => intro st h; exact h
  | cons p rest ih =>
    intro st h
    rw [pass2_cons]
    exact ih _ (step2_seqBound st p h)

theorem pass2_latest_ne : ∀ (l : List Path) (st : LocalState) {q : Path}, q ∉ l →
    getLatestFileInfo (pass2 l st).1.log q = getLatestFileInfo st.log q := by
  intro l
  induction l with
  | nil => intro st q _; rfl
  | cons p rest ih =>
    intro st q hq
    have hq1 : q ≠ p := by intro he; exact hq (by rw [he]; exact List.mem_cons_self p rest)
    rw [pass2_cons, ih _ (fun hm => hq (List.mem_cons_of_mem _ hm)),
      step2_latest_ne st p hq1]

theorem pass2_log_ext : ∀ (l : List Path) (st : LocalState),
    ∃ ext, (pass2 l st).1.log = st.log ++ ext ∧ ∀ r ∈ ext, r.path ∈ l := by
  intro l
  induction l with
  | nil => intro st; exact ⟨[], by simp [pass2]⟩
  | cons p rest ih =>
    intro st
    rw [pass2_cons]
    obtain ⟨e1, he1, hp1⟩ := step2_log_ext st p
    obtain ⟨e2, he2, hp2⟩ := ih (step2 st p).1
    refine ⟨e1 ++ e2, by rw [he2, he1, List.append_assoc], ?_⟩
    intro r hr
    rcases List.mem_append.1 hr with h1 | h1
    · rw [hp1 r h1]
      exact List.mem_cons_self p rest
    · exact List.mem_cons_of_mem _ (hp2 r h1)

theorem pass2_goodFile_pres (hashFn : Nat → Nat) : ∀ (l : List Path) (st : LocalState)
    {q : Path} {g : File}, alookup st.fs q ≠ none → goodFile hashFn st q g →
    goodFile hashFn (pass2 l st).1 q g := by
  intro l
  induction l with
  | nil => intro st q g _ hg; exact hg
  | cons p rest ih =>
    intro st q g hfsq hg
    rw [pass2_cons]
    refine ih _ ?_ (step2_goodFile_pres hashFn st p hfsq hg)
    rw [step2_fs]
    exact hfsq

theorem pass2_goodPath_pres : ∀ (l : List Path) (st : LocalState) {q : Path}, q ∉ l →
    goodPath st q → goodPath (pass2 l st).1 q := by
  intro l
  induction l with
  | nil => intro st q _ hg; exact hg
  | cons p rest ih =>
    intro st q hq hg
    have hq1 : q ≠ p := by intro he; exact hq (by rw [he]; exact List.mem_cons_self p rest)
    rw [pass2_cons]
    exact ih _ (fun hm => hq (List.mem_cons_of_mem _ hm))
      (step2_goodPath_pres st p hq1 hg)

theorem pass2_goodPath_all : ∀ (l : List Path) (st : LocalState), l.Nodup → seqBound st →
    ∀ p ∈ l, goodPath (pass2 l st).1 p := by
  intro l
  induction l with
  | nil => intro st _ _ p h; exact absurd h (List.not_mem_nil p)
  | cons p0 rest ih =>
    intro st hnd hsb p hp
    rw [List.nodup_cons] at hnd
    rw [pass2_cons]
    rcases List.mem_cons.1 hp with h1 | h1
    · subst h1
      exact pass2_goodPath_pres rest _ hnd.1 (step2_goodPath_self st p hsb)
    · exact ih _ hnd.2 (step2_seqBound st p0 hsb) p h1

theorem pass2_noop : ∀ (l : List Path) (st : LocalState),
    (∀ p ∈ l, goodPath st p) → pass2 l st = (st, []) := by
  intro l
  induction l with
  | nil => intro st _; rfl
  | cons p rest ih =>
    intro st h
    rw [pass2_cons, step2_neg st p (h p (List.mem_cons_self _ _)),
      ih st (fun x hx => h x (List.mem_cons_of_mem _ hx))]
    rfl

theorem pass2_appendsFor_ne : ∀ (l : List Path) (st : LocalState) {q : Path}, q ∉ l →
    appendsFor q (pass2 l st).2 = [] := by
  intro l
  induction l with
  | nil => intro st q _; rfl
  | cons p rest ih =>
    intro st q hq
    have hq1 : q ≠ p := by intro he; exact hq (by rw [he]; exact List.mem_cons_self p rest)
    rw [pass2_cons, appendsFor_append, step2_appendsFor_ne st p hq1,
      ih _ (fun hm => hq (List.mem_cons_of_mem _ hm))]
    rfl

theorem pass2_tomb : ∀ (l : List Path) (st : LocalState) {p : Path} {h : Nat}, l.Nodup →
    p ∈ l → alookup st.fs p = none → getMostRecentHash st.log p = some h →
    ∃ q, appendsFor p (pass2 l st).2 = [⟨q, p, none, none, none⟩] := by
  intro l
  induction l with
  | nil => intro st p h _ hp _ _; exact absurd hp (List.not_mem_nil p)
  | cons p0 rest ih =>
    intro st p h hnd hp hfs hmr
    rw [List.nodup_cons] at hnd
    rw [pass2_cons, appendsFor_append]
    by_cases hp0 : p0 = p
    · subst hp0
      rw [step2_pos st p0 hfs (by rw [hmr]; rfl)]
      rw [pass2_appendsFor_ne rest _ hnd.1]
      refine ⟨nextMiv st.miv, ?_⟩
      simp [appendsFor]
    · rcases List.mem_cons.1 hp with h1 | h1
      · exact absurd h1.symm hp0
      · rw [step2_appendsFor_ne st p0 (fun he => hp0 he.symm)]
        obtain ⟨q, hq⟩ := ih (step2 st p0).1 hnd.2 h1
          (by rw [step2_fs]; exact hfs)
          (by
            unfold getMostRecentHash
            rw [step2_latest_ne st p0 (fun he => hp0 he.symm)]
            exact hmr)
        exact ⟨q, by rw [hq]; rfl⟩

end Pass2Lemmas

section DispatchLemmas

theorem localDispatch_def (hashFn encFn : Nat → Nat) (e : Option String) (s : LocalState) :
    localDispatch hashFn encFn e s =
      ((pass2 (getPaths (pass1 hashFn encFn s.fs s).1.log) (pass1 hashFn encFn s.fs s).1).1,
       (pass1 hashFn encFn s.fs s).2 ++
         (pass2 (getPaths (pass1 hashFn encFn s.fs s).1.log) (pass1 hashFn encFn s.fs s).1).2) :=
  rfl

theorem localDispatch_noop (hashFn encFn : Nat → Nat) (t : LocalState) (e : Option String)
    (hF : ∀ pf ∈ t.fs, goodFile hashFn t pf.1 pf.2)
    (hP : ∀ p ∈ getPaths t.log, goodPath t p) :
    localDispatch hashFn encFn e t = (t, []) := by
  rw [localDispatch_def, pass1_noop hashFn encFn t.fs t hF]
  show ((pass2 (getPaths t.log) t).1, ([] : List Effect) ++ (pass2 (getPaths t.log) t).2) =
    (t, [])
  rw [pass2_noop (getPaths t.log) t hP]
  rfl

theorem localDispatch_synced (hashFn encFn : Nat → Nat) (s : LocalState)
    (hnd : (s.fs.map Prod.fst).Nodup) (hsb : seqBound s) (e : Option String) :
    (localDispatch hashFn encFn e s).1.fs = s.fs ∧
    (∀ pf ∈ s.fs, goodFile hashFn (localDispatch hashFn encFn e s).1 pf.1 pf.2) ∧
    (∀ p ∈ getPaths (localDispatch hashFn encFn e s).1.log,
      goodPath (localDispatch hashFn encFn e s).1 p) := by
  rw [localDispatch_def]
  refine ⟨?_, ?_, ?_⟩
  · rw [pass2_fs, pass1_fs]
  · intro pf hpf
    refine pass2_goodFile_pres hashFn _ _ ?_ ?_
    · rw [pass1_fs]
      exact alookup_ne_none_of_mem hpf
    · exact pass1_good_all hashFn encFn s.fs s hnd hsb pf hpf
  · intro p hp
    have hub : p ∈ getPaths (pass1 hashFn encFn s.fs s).1.log := by
      rcases mem_getPaths.1 hp with ⟨r, hr, hrp⟩
      obtain ⟨ext, hext, hpext⟩ := pass2_log_ext
        (getPaths (pass1 hashFn encFn s.fs s).1.log) (pass1 hashFn encFn s.fs s).1
      rw [hext] at hr
      rcases List.mem_append.1 hr with h1 | h1
      · exact mem_getPaths.2 ⟨r, h1, hrp⟩
      · rw [← hrp]
        exact hpext r h1
    exact pass2_goodPath_all _ _ (getPaths_nodup _)
      (pass1_seqBound hashFn encFn s.fs s hsb) p hub

theorem localDispatch_steady (hashFn encFn : Nat → Nat) (s : LocalState)
    (hnd : (s.fs.map Prod.fst).Nodup) (hsb : seqBound s) (e e' : Option String) :
    localDispatch hashFn encFn e' ((localDispatch hashFn encFn e s).1) =
      ((localDispatch hashFn encFn e s).1, []) := by
  obtain ⟨hfs1, hF, hP⟩ := localDispatch_synced hashFn encFn s hnd hsb e
  refine localDispatch_noop hashFn encFn _ e' ?_ hP
  intro pf hpf
  exact hF pf (by rw [hfs1] at hpf; exact hpf)

theorem allAppends_append (tr1 tr2 : List Effect) :
    allAppends (tr1 ++ tr2) = allAppends tr1 ++ allAppends tr2 :=
  List.filterMap_append _ _ _

theorem step1_log_trace (hashFn encFn : Nat → Nat) (st : LocalState) (p : Path) (f : File) :
    (step1 hashFn encFn st p f).1.log =
      st.log ++ allAppends (step1 hashFn encFn st p f).2 := by
  by_cases h : some (hashFn f.content) = getMostRecentHash st.log p
  · rw [step1_neg hashFn encFn st p f h]
    by_cases hc : alookup st.cache (hashFn f.content) = none
    · rw [if_pos hc]; simp [allAppends]
    · rw [if_neg hc]; simp [allAppends]
  · rw [step1_pos hashFn encFn st p f h]
    by_cases hc : alookup st.cache (hashFn f.content) = none
    · rw [if_pos hc]; simp [allAppends]
    · rw [if_neg hc]; simp [allAppends]

theorem step2_log_trace (st : LocalState) (p : Path) :
    (step2 st p).1.log = st.log ++ allAppends (step2 st p).2 := by
  rcases step2_goodPath_cases st p with h | ⟨h1, h2⟩
  · rw [step2_neg st p h]; simp [allAppends]
  · rw [step2_pos st p h1 h2]; simp [allAppends]

theorem pass1_log_trace (hashFn encFn : Nat → Nat) : ∀ (l : List (Path × File)) (st : LocalState),
    (pass1 hashFn encFn l st).1.log = st.log ++ allAppends (pass1 hashFn encFn l st).2 := by
  intro l
  induction l with
  | nil => intro st; simp [pass1, allAppends]
  | cons pf rest ih =>
    obtain ⟨p, f⟩ := pf
    intro st
    rw [pass1_cons, allAppends_append, ih, step1_log_trace, List.append_assoc]

theorem pass2_log_trace : ∀ (l : List Path) (st : LocalState),
    (pass2 l st).1.log = st.log ++ allAppends (pass2 l st).2 := by
  intro l
  induction l with
  | nil => intro st; simp [pass2, allAppends]
  | cons p rest ih =>
    intro st
    rw [pass2_cons, allAppends_append, ih, step2_log_trace, List.append_assoc]

theorem localDispatch_log_trace (hashFn encFn : Nat → Nat) (e : Option String) (s : LocalState) :
    (localDispatch hashFn encFn e s).1.log =
      s.log ++ allAppends (localDispatch hashFn encFn e s).2 := by
  rw [localDispatch_def, allAppends_append, pass2_log_trace, pass1_log_trace,
    List.append_assoc]

theorem localDispatch_delete_trace (hashFn encFn : Nat → Nat) (s : LocalState) (p : Path)
    (h : Nat) (e : Option String) (hfs : alookup s.fs p = none)
    (hmr : getMostRecentHash s.log p = some h) :
    ∃ q, appendsFor p (localDispatch hashFn encFn e s).2 = [⟨q, p, none, none, none⟩] := by
  rw [localDispatch_def]
  have hnotkeys : p ∉ s.fs.map Prod.fst := not_mem_keys_of_alookup_none hfs
  have hlat : ∃ r, getLatestFileInfo s.log p = some r := by
    cases hl : getLatestFileInfo s.log p with
    | none =>
      unfold getMostRecentHash at hmr
      rw [hl] at hmr
      exact absurd hmr (by simp)
    | some r => exact ⟨r, rfl⟩
  obtain ⟨r, hr⟩ := hlat
  have hm1 : p ∈ getPaths (pass1 hashFn encFn s.fs s).1.log := by
    obtain ⟨ext, hext, _⟩ := pass1_log_ext hashFn encFn s.fs s
    refine mem_getPaths.2 ⟨r, ?_, (getLatestFileInfo_mem hr).2⟩
    rw [hext]
    exact List.mem_append.2 (Or.inl (getLatestFileInfo_mem hr).1)
  have hfs_sa : alookup (pass1 hashFn encFn s.fs s).1.fs p = none := by
    rw [pass1_fs]
    exact hfs
  have hmr_sa : getMostRecentHash (pass1 hashFn encFn s.fs s).1.log p = some h := by
    unfold getMostRecentHash
    rw [pass1_latest_ne hashFn encFn s.fs s hnotkeys]
    exact hmr
  obtain ⟨q, hq⟩ := pass2_tomb (getPaths (pass1 hashFn encFn s.fs s).1.log)
    (pass1 hashFn encFn s.fs s).1 (getPaths_nodup _) hm1 hfs_sa hmr_sa
  refine ⟨q, ?_⟩
  rw [appendsFor_append, pass1_appendsFor_ne hashFn encFn s.fs s hnotkeys, hq]
  rfl

end DispatchLemmas

section ApplyLemmas

theorem applyStep_adopt (hashFn decFn : Nat → Nat) (cache : List (Nat × Nat))
    (trashFail : List Path) (st : ApplyState) (p : Path) (wfi : FileInfo) (n : NodeId)
    (h : Nat) (hh : wfi.hash = some h)
    (hdiff : some h ≠ (alookup st.fs p).map (fun f => hashFn f.content))
    (hseq : some wfi.seq ≠ getLastSeq st.myLog p) :
    (applyStep hashFn decFn cache trashFail st (p, wfi, n)).1.myLog =
      st.myLog ++ [⟨wfi.seq, wfi.path, wfi.size, wfi.hash, wfi.mtime⟩] := by
  obtain ⟨sq, pa, sz, ha, mt⟩ := wfi
  simp only [FileInfo.hash] at hh
  subst hh
  simp [applyStep, hdiff, hseq]

theorem applyStep_adopt_skip (hashFn decFn : Nat → Nat) (cache : List (Nat × Nat))
    (trashFail : List Path) (st : ApplyState) (p : Path) (wfi : FileInfo) (n : NodeId)
    (h : Nat) (hh : wfi.hash = some h)
    (hdiff : some h ≠ (alookup st.fs p).map (fun f => hashFn f.content))
    (hseq : some wfi.seq = getLastSeq st.myLog p) :
    (applyStep hashFn decFn cache trashFail st (p, wfi, n)).1.myLog = st.myLog := by
  obtain ⟨sq, pa, sz, ha, mt⟩ := wfi
  simp only [FileInfo.hash] at hh
  subst hh
  simp [applyStep, hdiff, hseq]

theorem applyStep_tomb_trashfail (hashFn decFn : Nat → Nat) (cache : List (Nat × Nat))
    (trashFail : List Path) (st : ApplyState) (p : Path) (wfi : FileInfo) (n : NodeId)
    (f : File) (hh : wfi.hash = none) (hfs : alookup st.fs p = some f)
    (htf : p ∈ trashFail) :
    applyStep hashFn decFn cache trashFail st (p, wfi, n) =
      (⟨st.fs, st.myLog ++ [⟨wfi.seq, wfi.path, none, none, none⟩], st.trash⟩,
       [Effect.toTrash p false, Effect.append ⟨wfi.seq, wfi.path, none, none, none⟩]) := by
  obtain ⟨sq, pa, sz, ha, mt⟩ := wfi
  simp only [FileInfo.hash] at hh
  subst hh
  simp [applyStep, hfs, htf]

end ApplyLemmas

section Claims

/-- C1: for every path in any node's log, the merge pass of
`CloudSync.dispatch` selects as winner the current record with the
strictly greatest `seq` among all nodes' current records for that path,
and when one record's `seq` strictly exceeds all others the selected
winner is the same for every enumeration order of the log files. -/
theorem claim_C1_merge_strict_max_winner
    (logs : List (NodeId × List FileInfo)) (p : Path) (x : FileInfo × NodeId)
    (hx : x ∈ currentsFor logs p)
    (hmax : ∀ y ∈ currentsFor logs p, y ≠ x → y.1.seq < x.1.seq)
    (logs₂ : List (NodeId × List FileInfo)) (hperm : logs₂.Perm logs) :
    winnerFor logs₂ p = some x := by
  have hc : (currentsFor logs₂ p).Perm (currentsFor logs p) := hperm.filterMap _
  have hx₂ : x ∈ currentsFor logs₂ p := hc.mem_iff.2 hx
  obtain ⟨l₁, l₂, hdec⟩ := List.append_of_mem hx₂
  rw [winnerFor_eq_winFold, hdec]
  refine winFold_first ?_ ?_
  · intro y hy
    by_cases hyx : y = x
    · exact Or.inr hyx
    · refine Or.inl (hmax y (hc.subset ?_) hyx)
      rw [hdec]
      exact List.mem_append.2 (Or.inl hy)
  · intro y hy
    by_cases hyx : y = x
    · rw [hyx]
    · refine le_of_lt (hmax y (hc.subset ?_) hyx)
      rw [hdec]
      exact List.mem_append.2 (Or.inr (List.mem_cons_of_mem x hy))

/-- C1 witness: the spec's seq 3 versus seq 7 example, merged in the
opposite enumeration order, still selects node `b`'s seq 7 record. -/
theorem claim_C1_merge_strict_max_winner_witness :
    winnerFor [("b", c1LogB), ("a", c1LogA)] "f" =
      some (⟨7, "f", some 2, some 20, some 1⟩, "b") :=
  claim_C1_merge_strict_max_winner [("a", c1LogA), ("b", c1LogB)] "f"
    (⟨7, "f", some 2, some 20, some 1⟩, "b") (by decide) (by decide)
    [("b", c1LogB), ("a", c1LogA)]
    (List.Perm.swap ("a", c1LogA) ("b", c1LogB) [])

/-- C2: the claim says a failed blob fetch leaves the path fully in its
pre-merge state, with no record added to this node's log.  The code
computes `expand_ok` from `crypto.expand` and never reads it: at this
input the fetch fails (blob 99 absent), the local file is not written,
yet node `b`'s log still gains the winner's record. -/
theorem claim_C2_failed_fetch_still_updates_log :
    (cloudDispatch (fun n => n) (fun n => n) (some "a.db") c2state).1.fs = [] ∧
    (cloudDispatch (fun n => n) (fun n => n) (some "a.db") c2state).2 =
      [Effect.expand "f" 99 false, Effect.append ⟨7, "f", some 5, some 99, some 1⟩] ∧
    alookup (cloudDispatch (fun n => n) (fun n => n) (some "a.db") c2state).1.logs "b" =
      some [⟨7, "f", some 5, some 99, some 1⟩] :=
  ⟨rfl, rfl, rfl⟩

/-- C3 counterexample: with a winning tombstone for `f`, a local file
present and `send2trash` failing, the local file stays in place but the
tombstone record is still written into node `b`'s own log — refuting the
claim that no tombstone record is written during that pass. -/
theorem claim_C3_trashfail_counterexample :
    (cloudDispatch (fun n => n) (fun n => n) (some "a.db") c3state).2 =
      [Effect.toTrash "f" false, Effect.append ⟨9, "f", none, none, none⟩] ∧
    (cloudDispatch (fun n => n) (fun n => n) (some "a.db") c3state).1.fs =
      [("f", ⟨20, 2, 0⟩)] ∧
    alookup (cloudDispatch (fun n => n) (fun n => n) (some "a.db") c3state).1.logs "b" =
      some [⟨5, "f", some 2, some 20, some 0⟩, ⟨9, "f", none, none, none⟩] :=
  ⟨rfl, rfl, rfl⟩

/-- C3 (amended): when a merge pass applies a tombstone winner for a path
whose local file exists and the move-to-trash fails, the local file is
left in place, but the tombstone record for that path IS written into
this node's own log during that pass (the `OSError` is caught and the
update still runs). -/
theorem claim_C3_trashfail_keeps_file_but_logs
    (hashFn decFn : Nat → Nat) (cache : List (Nat × Nat)) (trashFail : List Path)
    (st : ApplyState) (p : Path) (wfi : FileInfo) (n : NodeId) (f : File)
    (hh : wfi.hash = none) (hfs : alookup st.fs p = some f) (htf : p ∈ trashFail) :
    (applyStep hashFn decFn cache trashFail st (p, wfi, n)).1.fs = st.fs ∧
    (applyStep hashFn decFn cache trashFail st (p, wfi, n)).1.myLog =
      st.myLog ++ [⟨wfi.seq, wfi.path, none, none, none⟩] ∧
    (applyStep hashFn decFn cache trashFail st (p, wfi, n)).2 =
      [Effect.toTrash p false, Effect.append ⟨wfi.seq, wfi.path, none, none, none⟩] := by
  rw [applyStep_tomb_trashfail hashFn decFn cache trashFail st p wfi n f hh hfs htf]
  exact ⟨rfl, rfl, rfl⟩

/-- C3 witness: the amended statement at a concrete tombstone winner. -/
theorem claim_C3_trashfail_keeps_file_but_logs_witness :
    (applyStep (fun n => n) (fun n => n) [] ["f"]
        ⟨[("f", ⟨20, 2, 0⟩)], [], []⟩ ("f", ⟨9, "f", none, none, none⟩, "a")).1.fs =
      [("f", ⟨20, 2, 0⟩)] ∧
    (applyStep (fun n => n) (fun n => n) [] ["f"]
        ⟨[("f", ⟨20, 2, 0⟩)], [], []⟩ ("f", ⟨9, "f", none, none, none⟩, "a")).1.myLog =
      [] ++ [⟨9, "f", none, none, none⟩] ∧
    (applyStep (fun n => n) (fun n => n) [] ["f"]
        ⟨[("f", ⟨20, 2, 0⟩)], [], []⟩ ("f", ⟨9, "f", none, none, none⟩, "a")).2 =
      [Effect.toTrash "f" false, Effect.append ⟨9, "f", none, none, none⟩] :=
  claim_C3_trashfail_keeps_file_but_logs (fun n => n) (fun n => n) [] ["f"]
    ⟨[("f", ⟨20, 2, 0⟩)], [], []⟩ "f" ⟨9, "f", none, none, none⟩ "a" ⟨20, 2, 0⟩
    rfl (by decide) (by decide)

/-- C4: the claim says every watcher's `start()` runs one full dispatch
pass before subscribing (the comment at sync.py line 66 says the same).
`SyncBase.start` calls `dispatch(None)`, but `CloudSync.dispatch` first
filters on the event's file extension; with no event the extension is
absent, `None == '.db'` is false, and the whole merge body is skipped:
the cloud watcher's initial dispatch does nothing at all. -/
theorem claim_C4_cloud_dispatch_none_is_noop (hashFn decFn : Nat → Nat) (s : CloudState) :
    cloudDispatch hashFn decFn none s = (s, []) := by
  simp [cloudDispatch]

/-- C5 counterexample: on a fresh file the local dispatch emits the log
append BEFORE the blob store — the store does not precede the append as
the claim requires. -/
theorem claim_C5_store_order_counterexample :
    (localDispatch (fun n => n) (fun n => n) none c5state).2 =
      [Effect.append c5rec, Effect.store 1 1] ∧
    ¬((localDispatch (fun n => n) (fun n => n) none c5state).2.indexOf
          (Effect.store 1 1) <
        (localDispatch (fun n => n) (fun n => n) none c5state).2.indexOf
          (Effect.append c5rec)) := by
  decide

/-- C5 (amended): on the local-change path, for a file whose computed
digest differs from (or is absent from) this node's current log record,
the per-file work of `LocalSync.dispatch` appends the new event record —
a fresh counter value as `seq`, the path, the file's size, digest and
mtime — to this node's log, and then stores the encrypted blob in the
cache under the digest if not already present: append before store, the
reverse of the claimed order, as the effect trace shows. -/
theorem claim_C5_append_then_store (hashFn encFn : Nat → Nat) (st : LocalState)
    (p : Path) (f : File)
    (hdiff : some (hashFn f.content) ≠ getMostRecentHash st.log p) :
    (step1 hashFn encFn st p f).1.log =
      st.log ++ [⟨nextMiv st.miv, p, some f.size, some (hashFn f.content), some f.mtime⟩] ∧
    (step1 hashFn encFn st p f).1.cache =
      storeBlob st.cache (hashFn f.content) (encFn f.content) ∧
    (step1 hashFn encFn st p f).2 =
      Effect.append ⟨nextMiv st.miv, p, some f.size, some (hashFn f.content), some f.mtime⟩ ::
        (if alookup st.cache (hashFn f.content) = none then
          [Effect.store (hashFn f.content) (encFn f.content)]
        else []) := by
  rw [step1_pos hashFn encFn st p f hdiff]
  exact ⟨rfl, rfl, rfl⟩

/-- C5 witness: a fresh file `a` on an empty log and cache — the record
with seq 1 is appended and the blob stored, append first. -/
theorem claim_C5_append_then_store_witness :
    (step1 (fun n => n) (fun n => n) c5state "a" ⟨1, 1, 0⟩).1.log =
      [] ++ [⟨1, "a", some 1, some 1, some 0⟩] ∧
    (step1 (fun n => n) (fun n => n) c5state "a" ⟨1, 1, 0⟩).1.cache =
      storeBlob [] 1 1 ∧
    (step1 (fun n => n) (fun n => n) c5state "a" ⟨1, 1, 0⟩).2 =
      [Effect.append ⟨1, "a", some 1, some 1, some 0⟩, Effect.store 1 1] :=
  claim_C5_append_then_store (fun n => n) (fun n => n) c5state "a" ⟨1, 1, 0⟩ (by decide)

/-- C6: deleting a previously synced local file and dispatching appends
exactly one tombstone (absent size, digest and mtime) for that path; the
log gains exactly the appended records of the trace; and a further
dispatch with no intervening change appends nothing and changes nothing. -/
theorem claim_C6_delete_appends_one_tombstone (hashFn encFn : Nat → Nat) (s : LocalState)
    (p : Path) (h : Nat) (e e₂ : Option String)
    (hfs : alookup s.fs p = none)
    (hmr : getMostRecentHash s.log p = some h)
    (hnd : (s.fs.map Prod.fst).Nodup) (hsb : seqBound s) :
    (∃ q, appendsFor p (localDispatch hashFn encFn e s).2 = [⟨q, p, none, none, none⟩]) ∧
    (localDispatch hashFn encFn e s).1.log =
      s.log ++ allAppends (localDispatch hashFn encFn e s).2 ∧
    localDispatch hashFn encFn e₂ ((localDispatch hashFn encFn e s).1) =
      ((localDispatch hashFn encFn e s).1, []) :=
  ⟨localDispatch_delete_trace hashFn encFn s p h e hfs hmr,
   localDispatch_log_trace hashFn encFn e s,
   localDispatch_steady hashFn encFn s hnd hsb e e₂⟩

/-- C6 witness: a synced record for `a` with the file deleted. -/
theorem claim_C6_delete_appends_one_tombstone_witness :
    (∃ q, appendsFor "a" (localDispatch (fun n => n) (fun n => n) none c6state).2 =
      [⟨q, "a", none, none, none⟩]) ∧
    (localDispatch (fun n => n) (fun n => n) none c6state).1.log =
      c6state.log ++ allAppends (localDispatch (fun n => n) (fun n => n) none c6state).2 ∧
    localDispatch (fun n => n) (fun n => n) (some "x")
        ((localDispatch (fun n => n) (fun n => n) none c6state).1) =
      ((localDispatch (fun n => n) (fun n => n) none c6state).1, []) :=
  claim_C6_delete_appends_one_tombstone (fun n => n) (fun n => n) c6state "a" 7
    none (some "x") (by decide) (by decide) (by decide) (by unfold seqBound; decide)

/-- C7 counterexample: node `b`'s current record for `f` (seq 5, digest
20) is not the winner (node `a`'s seq 5, digest 10, which wins the
enumeration-order tie-break and is applied, the digests differing), yet
because `get_last_seq` equals the winner's seq, no adoption record is
written into `b`'s log. -/
theorem claim_C7_equal_seq_counterexample :
    winnerFor c7state.logs "f" = some (⟨5, "f", some 1, some 10, some 0⟩, "a") ∧
    getLatestFileInfo [⟨5, "f", some 2, some 20, some 0⟩] "f" =
      some ⟨5, "f", some 2, some 20, some 0⟩ ∧
    (cloudDispatch (fun n => n) (fun n => n) (some "a.db") c7state).2 =
      [Effect.expand "f" 10 true] ∧
    alookup (cloudDispatch (fun n => n) (fun n => n) (some "a.db") c7state).1.logs "b" =
      some [⟨5, "f", some 2, some 20, some 0⟩] :=
  ⟨rfl, rfl, rfl, rfl⟩

/-- C7 (amended): when the apply branch of the merge runs for a
non-tombstone winner, the engine writes the winner's own fields —
including the winner's existing `seq`, allocating none — into this
node's log exactly when this node's last `seq` for the path differs from
the winner's `seq`; when the last `seq` already equals the winner's
`seq` (in particular when the current record is the winner itself), no
record is written. -/
theorem claim_C7_adoption_by_seq (hashFn decFn : Nat → Nat) (cache : List (Nat × Nat))
    (trashFail : List Path) (st : ApplyState) (p : Path) (wfi : FileInfo) (n : NodeId)
    (h : Nat) (hh : wfi.hash = some h)
    (hdiff : some h ≠ (alookup st.fs p).map (fun f => hashFn f.content)) :
    (getLastSeq st.myLog p ≠ some wfi.seq →
      (applyStep hashFn decFn cache trashFail st (p, wfi, n)).1.myLog =
        st.myLog ++ [⟨wfi.seq, wfi.path, wfi.size, wfi.hash, wfi.mtime⟩]) ∧
    (getLastSeq st.myLog p = some wfi.seq →
      (applyStep hashFn decFn cache trashFail st (p, wfi, n)).1.myLog = st.myLog) := by
  constructor
  · intro hne
    exact applyStep_adopt hashFn decFn cache trashFail st p wfi n h hh hdiff (Ne.symm hne)
  · intro heq
    exact applyStep_adopt_skip hashFn decFn cache trashFail st p wfi n h hh hdiff heq.symm

/-- C7 witness: the amended statement at a concrete winner record applied
on a node with an empty log (no local file, last seq absent). -/
theorem claim_C7_adoption_by_seq_witness :
    (getLastSeq ([] : List FileInfo) "g" ≠ some 4 →
      (applyStep (fun n => n) (fun n => n) [] [] ⟨[], [], []⟩
          ("g", ⟨4, "g", some 1, some 9, some 2⟩, "a")).1.myLog =
        [] ++ [⟨4, "g", some 1, some 9, some 2⟩]) ∧
    (getLastSeq ([] : List FileInfo) "g" = some 4 →
      (applyStep (fun n => n) (fun n => n) [] [] ⟨[], [], []⟩
          ("g", ⟨4, "g", some 1, some 9, some 2⟩, "a")).1.myLog = []) :=
  claim_C7_adoption_by_seq (fun n => n) (fun n => n) [] [] ⟨[], [], []⟩ "g"
    ⟨4, "g", some 1, some 9, some 2⟩ "a" 9 rfl (by decide)

/-- C8: storing a blob under a digest is idempotent — after a first
store, a second store for the same digest (with any body) leaves the
cache, including the pre-existing entry, unchanged. -/
theorem claim_C8_store_blob_idempotent (cache : List (Nat × Nat)) (d b b' : Nat) :
    storeBlob (storeBlob cache d b) d b' = storeBlob cache d b :=
  storeBlob_of_present b' (storeBlob_self cache d b)

/-- C9: `LocalSync.dispatch` never reads the event it is given (the
source only interpolates it into a log message): from the same state any
two events — including the no-event value — produce identical states and
effect traces, and a redundant dispatch from the resulting state is a
no-op. -/
theorem claim_C9_dispatch_ignores_event (hashFn encFn : Nat → Nat) (s : LocalState)
    (hnd : (s.fs.map Prod.fst).Nodup) (hsb : seqBound s) (e₁ e₂ : Option String) :
    localDispatch hashFn encFn e₁ s = localDispatch hashFn encFn e₂ s ∧
    localDispatch hashFn encFn e₂ ((localDispatch hashFn encFn e₁ s).1) =
      ((localDispatch hashFn encFn e₁ s).1, []) :=
  ⟨rfl, localDispatch_steady hashFn encFn s hnd hsb e₁ e₂⟩

/-- C9 witness: a node with two files and a tombstoned path, dispatched
with a concrete event and with no event. -/
theorem claim_C9_dispatch_ignores_event_witness :
    localDispatch (fun n => n) (fun n => n) (some "evt/a.txt") c9state =
      localDispatch (fun n => n) (fun n => n) none c9state ∧
    localDispatch (fun n => n) (fun n => n) none
        ((localDispatch (fun n => n) (fun n => n) (some "evt/a.txt") c9state).1) =
      ((localDispatch (fun n => n) (fun n => n) (some "evt/a.txt") c9state).1, []) :=
  claim_C9_dispatch_ignores_event (fun n => n) (fun n => n) c9state
    (by decide) (by unfold seqBound; decide) (some "evt/a.txt") none

/-- C10: the merge keeps the first-enumerated record among those with the
maximal `seq`: an already-chosen winner is replaced only by a strictly
greater `seq`, so if every earlier candidate is strictly below `x` and
every later candidate is at most `x`, `x` wins — equal-`seq` ties go to
the log file enumerated first. -/
theorem claim_C10_tie_first_enumerated_wins
    (logs : List (NodeId × List FileInfo)) (p : Path)
    (l₁ l₂ : List (FileInfo × NodeId)) (x : FileInfo × NodeId)
    (hdec : currentsFor logs p = l₁ ++ x :: l₂)
    (h₁ : ∀ y ∈ l₁, y.1.seq < x.1.seq) (h₂ : ∀ y ∈ l₂, y.1.seq ≤ x.1.seq) :
    winnerFor logs p = some x := by
  rw [winnerFor_eq_winFold, hdec]
  exact winFold_first (fun y hy => Or.inl (h₁ y hy)) h₂

/-- C10 witness: two logs with the same maximal seq 5 for `f`; the first
enumerated log's record wins the tie. -/
theorem claim_C10_tie_first_enumerated_wins_witness :
    winnerFor [("a", c10LogA), ("b", c10LogB)] "f" =
      some (⟨5, "f", some 1, some 10, some 0⟩, "a") :=
  claim_C10_tie_first_enumerated_wins [("a", c10LogA), ("b", c10LogB)] "f"
    [] [(⟨5, "f", some 2, some 20, some 0⟩, "b")]
    (⟨5, "f", some 1, some 10, some 0⟩, "a") (by decide) (by decide) (by decide)

end Claims

end Latus
